import Mathlib

/-!
Shallow embedding of `src/api/index.js` (coin-snapshot-upsert).

The program fetches paginated market data, trims to a target count,
detects and removes duplicate keys (last write wins via a JS `Map`),
chunks the result and upserts each chunk in order.

Modelling decisions:
* A JS `Map` is an insertion-ordered association list `List (κ × α)`;
  `Map.set` on an existing key overwrites the value *in place* (the
  original insertion position is kept), otherwise appends.
* A JS `Set` is an insertion-ordered duplicate-free list; `Set.add`
  appends when absent.
* Market records are an abstract type `α`; the identifying-key field
  access `record[key]` is a function `key : α → κ`.
* `fetch` responses are modelled as a status/statusText/decoded-body
  structure; a body that is not a JSON array is `none`.
* Fallible operations return `Except`; the external source and store
  are oracles passed in as functions.
-/

namespace CoinSnapshot

/-- JS `Map.set m k v`: overwrite in place when the key is present
(keeping its original insertion position), else append at the end. -/
def mapSet {κ α : Type} [DecidableEq κ] (m : List (κ × α)) (k : κ) (v : α) :
    List (κ × α) :=
  if k ∈ m.map Prod.fst then m.map (fun p => if p.1 = k then (k, v) else p)
  else m ++ [(k, v)]

/-- Lookup in an insertion-ordered association list (JS `Map.get`). -/
def lookupA {κ α : Type} [DecidableEq κ] : List (κ × α) → κ → Option α
  | [], _ => none
  | (k', v) :: m, k => if k = k' then some v else lookupA m k

/-- The `Map`-building loop of `deduplicateByKey` (lines 37-40):
`for (const record of data) map.set(record[key], record)`. -/
def dedupFold {α κ : Type} [DecidableEq κ] (key : α → κ) (data : List α)
    (m : List (κ × α)) : List (κ × α) :=
  data.foldl (fun acc r => mapSet acc (key r) r) m

/-- `deduplicateByKey(data, key)` (lines 36-42): build a `Map` keyed by
`record[key]`, then return `Array.from(map.values())`. -/
def deduplicateByKey {α κ : Type} [DecidableEq κ] (data : List α) (key : α → κ) :
    List α :=
  (dedupFold key data []).map Prod.snd

/-- JS `Set.add`: append when absent. -/
def setAdd {κ : Type} [DecidableEq κ] (s : List κ) (k : κ) : List κ :=
  if k ∈ s then s else s ++ [k]

/-- One step of the `findDuplicateIds` loop body (lines 50-54) on the
`(seen, dupes)` state. -/
def dupStep {α κ : Type} [DecidableEq κ] (key : α → κ) (st : List κ × List κ)
    (r : α) : List κ × List κ :=
  if key r ∈ st.1 then (st.1, setAdd st.2 (key r)) else (setAdd st.1 (key r), st.2)

/-- `findDuplicateIds(data, key)` (lines 47-56): scan with a `seen` set
and a `dupes` set, return `Array.from(dupes)`. -/
def findDuplicateIds {α κ : Type} [DecidableEq κ] (data : List α) (key : α → κ) :
    List κ :=
  (data.foldl (dupStep key) ([], [])).2

/-- `chunkArray(array, size)` (lines 61-67): slices of length `size`
starting at 0, size, 2*size, ... For `size = 0` the JS loop does not
terminate; we return `[]` there (all claims assume `size ≥ 1`). -/
def chunkArray {α : Type} (array : List α) (size : Nat) : List (List α) :=
  if h0 : array.length = 0 then []
  else if h : size = 0 then []
  else array.take size :: chunkArray (array.drop size) size
termination_by array.length
decreasing_by
  simp only [List.length_drop]
  omega

/-- An HTTP response from the market-data source, as seen by
`fetchPage`: status, status text and the decoded JSON body (`none`
when the body is not a JSON array). -/
structure HttpResponse (α : Type) where
  status : Nat
  statusText : String
  body : Option (List α)

/-- `res.ok` of the fetch API: status in the 2xx range. -/
def respOk {α : Type} (r : HttpResponse α) : Bool :=
  decide (200 ≤ r.status) && decide (r.status < 300)

/-- `fetchPage(page)` (lines 72-79) given the transport as an oracle:
throw `CoinGecko API error: <status> <statusText>` unless `res.ok`,
else return the decoded JSON body. -/
def fetchPage {α : Type} (transport : Nat → HttpResponse α) (page : Nat) :
    Except String (Option (List α)) :=
  let r := transport page
  if respOk r then Except.ok r.body
  else Except.error ("CoinGecko API error: " ++ toString r.status ++ " " ++ r.statusText)

/-- The fetch-accumulate loop of the handler (lines 103-114):
`while (allData.length < TARGET) { pageData = await fetchPage(page);
if (!Array.isArray(pageData) || pageData.length === 0) break;
allData.push(...pageData); page++ }`.
Returns the list of page numbers actually fetched together with the
accumulated data (or the first fetch error). -/
def fetchLoop {α ε : Type} (fetch : Nat → Except ε (Option (List α)))
    (target : Nat) (acc : List α) (page : Nat) :
    List Nat × Except ε (List α) :=
  if h : acc.length < target then
    match fetch page with
    | Except.error e => ([page], Except.error e)
    | Except.ok none => ([page], Except.ok acc)
    | Except.ok (some []) => ([page], Except.ok acc)
    | Except.ok (some (x :: xs)) =>
        let rest := fetchLoop fetch target (acc ++ x :: xs) (page + 1)
        (page :: rest.1, rest.2)
  else ([], Except.ok acc)
termination_by target - acc.length
decreasing_by
  simp only [List.length_append, List.length_cons]
  omega

/-- The batch-upsert loop (lines 135-138) with the store as an oracle:
submit chunks strictly in order, stop at the first error. Returns the
batches actually submitted and the first error, if any. -/
def runBatches {α ε : Type} (upsert : List α → Except ε Unit) :
    List (List α) → List (List α) × Option ε
  | [] => ([], none)
  | b :: rest =>
    match upsert b with
    | Except.error e => ([b], some e)
    | Except.ok _ =>
        let r := runBatches upsert rest
        (b :: r.1, r.2)

/-- The outcome the handler reports (lines 143-150): HTTP 200 with the
deduplicated total, or HTTP 500 with the error. -/
inductive Outcome (ε : Type) where
  | success (total : Nat)
  | failure (e : ε)
deriving DecidableEq

/-- Observable result of one handler invocation: the reported outcome,
the pages fetched and the batches submitted to the store, in order. -/
structure HandlerResult (α ε : Type) where
  outcome : Outcome ε
  fetched : List Nat
  submitted : List (List α)
deriving DecidableEq

/-- `handler` (lines 100-152): fetch until target or exhaustion, trim
to target, detect duplicates (diagnostic only), deduplicate, chunk,
upsert each chunk in order; report success with the deduplicated count
or failure with the first error. -/
def handlerRun {α κ ε : Type} [DecidableEq κ]
    (fetch : Nat → Except ε (Option (List α)))
    (upsert : List α → Except ε Unit)
    (key : α → κ) (target batchSize : Nat) : HandlerResult α ε :=
  let fl := fetchLoop fetch target [] 1
  match fl.2 with
  | Except.error e => ⟨Outcome.failure e, fl.1, []⟩
  | Except.ok allData =>
    let sliced := allData.take target
    let _dupes := findDuplicateIds sliced key
    let deduplicated := deduplicateByKey sliced key
    let chunks := chunkArray deduplicated batchSize
    let rb := runBatches upsert chunks
    match rb.2 with
    | some e => ⟨Outcome.failure e, fl.1, rb.1⟩
    | none => ⟨Outcome.success deduplicated.length, fl.1, rb.1⟩

/-- JS truthiness of an environment variable: `undefined` (`none`) and
the empty string are falsy. -/
def envTruthy : Option String → Bool
  | none => false
  | some s => decide (s ≠ "")

/-- Result of running the whole process: fatal exit at startup
(lines 12-15, `process.exit(1)`), or a completed handler invocation. -/
inductive ProcessResult (α ε : Type) where
  | fatalExit (code : Nat)
  | ran (r : HandlerResult α ε)
deriving DecidableEq

/-- Module init (lines 11-15) followed by the handler: when
`SUPABASE_URL` or `SUPABASE_SERVICE_KEY` is falsy the process exits
with code 1 before anything else runs; the traces record that no page
was fetched and no batch was submitted. -/
def processRun {α κ ε : Type} [DecidableEq κ]
    (supabaseUrl supabaseServiceKey : Option String)
    (fetch : Nat → Except ε (Option (List α)))
    (upsert : List α → Except ε Unit)
    (key : α → κ) (target batchSize : Nat) :
    ProcessResult α ε × List Nat × List (List α) :=
  if envTruthy supabaseUrl && envTruthy supabaseServiceKey then
    let r := handlerRun fetch upsert key target batchSize
    (ProcessResult.ran r, r.fetched, r.submitted)
  else
    (ProcessResult.fatalExit 1, [], [])

/-- The last record of `data` whose key is `k` (the "last write" that
survives deduplication). -/
def lastWithKey {α κ : Type} [DecidableEq κ] (data : List α) (key : α → κ)
    (k : κ) : Option α :=
  (data.filter (fun r => key r = k)).getLast?

/-- Keys of a list in first-occurrence order, each kept once. -/
def firstOccKeys {κ : Type} [DecidableEq κ] : List κ → List κ
  | [] => []
  | k :: ks => k :: (firstOccKeys ks).filter (fun k' => k' ≠ k)

/-- The concrete record type of the spec scenario
`[{id:1,v:'a'},{id:2,v:'b'},{id:1,v:'c'}]`. -/
structure ScenRec where
  id : Nat
  v : String
deriving DecidableEq

/-- The scenario input sequence. -/
def scenarioData : List ScenRec :=
  [⟨1, "a"⟩, ⟨2, "b"⟩, ⟨1, "c"⟩]

/-- The pagination scenario source: pages 1 and 2 return 250 records
each, page 3 is empty (records are opaque, modelled as `0`). -/
def scenarioPages : Nat → Except Unit (Option (List Nat)) :=
  fun p => if p ≤ 2 then Except.ok (some (List.replicate 250 0)) else Except.ok (some [])

/-- A concrete source for closed instances: one page of five records
with distinct keys, then exhausted. -/
def wfetch : Nat → Except String (Option (List Nat)) :=
  fun p => if p = 1 then Except.ok (some [1, 2, 3, 4, 5]) else Except.ok (some [])

/-- A concrete store for closed instances: rejects exactly the batch
`[3, 4]` (the second of three batches of size 2). -/
def wupsert : List Nat → Except String Unit :=
  fun b => if b = [3, 4] then Except.error "store error" else Except.ok ()

/-- A concrete transport whose response is a 503. -/
def wtransport : Nat → HttpResponse Nat :=
  fun _ => ⟨503, "Service Unavailable", none⟩

/-- A concrete transport whose response is a 200 with a one-record page. -/
def wtransportOk : Nat → HttpResponse Nat :=
  fun _ => ⟨200, "OK", some [7]⟩

/-- A concrete source whose very first page is already empty. -/
def emptyFetch : Nat → Except String (Option (List Nat)) :=
  fun _ => Except.ok (some [])

/-! ### Lemmas about the JS `Map` embedding -/

theorem mapSet_map_fst {κ α : Type} [DecidableEq κ] (m : List (κ × α)) (k : κ) (v : α) :
    (mapSet m k v).map Prod.fst =
      if k ∈ m.map Prod.fst then m.map Prod.fst else m.map Prod.fst ++ [k] := by
  unfold mapSet
  split
  · rw [List.map_map]
    refine List.map_congr_left ?_
    intro p _
    by_cases hp : p.1 = k <;> simp [hp]
  · simp

theorem lookupA_eq_none {κ α : Type} [DecidableEq κ] (m : List (κ × α)) (k : κ) :
    lookupA m k = none ↔ k ∉ m.map Prod.fst := by
  induction m with
  | nil => simp [lookupA]
  | cons p m ih =>
    obtain ⟨k', v⟩ := p
    by_cases h : k = k' <;> simp [lookupA, h, ih]

theorem lookupA_append {κ α : Type} [DecidableEq κ] (m₁ m₂ : List (κ × α)) (k : κ) :
    lookupA (m₁ ++ m₂) k = (lookupA m₁ k).or (lookupA m₂ k) := by
  induction m₁ with
  | nil => simp [lookupA, Option.none_or]
  | cons p m ih =>
    obtain ⟨k', v⟩ := p
    by_cases h : k = k' <;> simp [lookupA, h, ih, Option.or]

theorem lookupA_replace {κ α : Type} [DecidableEq κ] (m : List (κ × α)) (k : κ) (v : α)
    (k' : κ) :
    lookupA (m.map (fun p => if p.1 = k then (k, v) else p)) k' =
      if k' = k then (if k ∈ m.map Prod.fst then some v else none)
      else lookupA m k' := by
  induction m with
  | nil => simp [lookupA]
  | cons p m ih =>
    obtain ⟨k₀, v₀⟩ := p
    simp only [List.map_cons]
    by_cases h0 : k₀ = k
    · rw [show (if (k₀, v₀).1 = k then (k, v) else (k₀, v₀)) = (k, v) from if_pos h0]
      subst h0
      by_cases h1 : k' = k₀ <;> simp [lookupA, h1, ih]
    · rw [show (if (k₀, v₀).1 = k then (k, v) else (k₀, v₀)) = (k₀, v₀) from if_neg h0]
      have h0' : ¬k = k₀ := fun hh => h0 hh.symm
      by_cases h1 : k' = k₀
      · subst h1
        simp [lookupA, h0]
      · simp only [lookupA, if_neg h1, ih]
        by_cases h2 : k' = k
        · subst h2
          by_cases h3 : k' ∈ List.map Prod.fst m
          · simp [h3, List.mem_cons]
          · simp [h3, List.mem_cons, h0']
        · simp [h2]

theorem lookupA_mapSet {κ α : Type} [DecidableEq κ] (m : List (κ × α)) (k : κ) (v : α)
    (k' : κ) :
    lookupA (mapSet m k v) k' = if k' = k then some v else lookupA m k' := by
  unfold mapSet
  split
  next hmem => rw [lookupA_replace]; simp [hmem]
  next hmem =>
    rw [lookupA_append]
    by_cases h : k' = k
    · subst h
      rw [(lookupA_eq_none m k').mpr hmem]
      simp [lookupA, Option.none_or]
    · simp [lookupA, h, Option.or_none]

theorem lookupA_of_mem {κ α : Type} [DecidableEq κ] {m : List (κ × α)} {k : κ} {v : α}
    (hnd : (m.map Prod.fst).Nodup) (hmem : (k, v) ∈ m) : lookupA m k = some v := by
  induction m with
  | nil => simp at hmem
  | cons p m ih =>
    obtain ⟨k₀, v₀⟩ := p
    simp only [List.map_cons, List.nodup_cons] at hnd
    rcases List.mem_cons.mp hmem with h | h
    · rw [Prod.mk.injEq] at h
      simp [lookupA, h.1, h.2]
    · have hk : k ≠ k₀ := by
        rintro rfl
        exact hnd.1 (List.mem_map.mpr ⟨(k, v), h, rfl⟩)
      simp [lookupA, hk, ih hnd.2 h]

/-! ### Lemmas about `dedupFold` (the `Map`-building loop) -/

theorem dedupFold_nil {α κ : Type} [DecidableEq κ] (key : α → κ) (m : List (κ × α)) :
    dedupFold key [] m = m := rfl

theorem dedupFold_cons {α κ : Type} [DecidableEq κ] (key : α → κ) (r : α) (data : List α)
    (m : List (κ × α)) :
    dedupFold key (r :: data) m = dedupFold key data (mapSet m (key r) r) := rfl

theorem dedupFold_map_fst {α κ : Type} [DecidableEq κ] (key : α → κ) (data : List α)
    (m : List (κ × α)) :
    (dedupFold key data m).map Prod.fst =
      m.map Prod.fst ++
        (firstOccKeys (data.map key)).filter (fun k => decide (k ∉ m.map Prod.fst)) := by
  induction data generalizing m with
  | nil => simp [dedupFold_nil, firstOccKeys]
  | cons r data ih =>
    rw [dedupFold_cons, ih, mapSet_map_fst]
    by_cases h : key r ∈ m.map Prod.fst
    · rw [if_pos h]
      simp only [List.map_cons, firstOccKeys, List.filter_cons, h, decide_not,
        not_true_eq_false, decide_True, Bool.not_true, if_false, List.filter_filter]
      refine congrArg (m.map Prod.fst ++ ·) (List.filter_congr ?_)
      intro a _
      by_cases h1 : a ∈ m.map Prod.fst
      · simp [h1]
      · by_cases h2 : a = key r
        · subst h2; exact absurd h h1
        · simp [h1, h2]
    · rw [if_neg h]
      simp only [List.map_cons, firstOccKeys, List.filter_cons, h, decide_not,
        not_false_eq_true, decide_True, Bool.not_false, if_true, List.filter_filter,
        List.append_assoc, List.singleton_append]
      refine congrArg (m.map Prod.fst ++ ·) (congrArg (key r :: ·) (List.filter_congr ?_))
      intro a _
      by_cases h1 : a ∈ m.map Prod.fst
      · simp [h1]
      · by_cases h2 : a = key r <;> simp [h1, h2]

theorem dedupFold_nodup_fst {α κ : Type} [DecidableEq κ] (key : α → κ) (data : List α)
    {m : List (κ × α)} (hnd : (m.map Prod.fst).Nodup) :
    ((dedupFold key data m).map Prod.fst).Nodup := by
  induction data generalizing m with
  | nil => exact hnd
  | cons r data ih =>
    rw [dedupFold_cons]
    refine ih ?_
    rw [mapSet_map_fst]
    by_cases h : key r ∈ m.map Prod.fst
    · simpa [h] using hnd
    · simp [h, List.nodup_append, hnd]

theorem dedupFold_key_eq {α κ : Type} [DecidableEq κ] (key : α → κ) (data : List α)
    {m : List (κ × α)} (hm : ∀ p ∈ m, key p.2 = p.1) :
    ∀ p ∈ dedupFold key data m, key p.2 = p.1 := by
  induction data generalizing m with
  | nil => exact hm
  | cons r data ih =>
    rw [dedupFold_cons]
    refine ih ?_
    intro p hp
    unfold mapSet at hp
    split at hp
    · obtain ⟨q, hq, hq2⟩ := List.mem_map.mp hp
      by_cases h : q.1 = key r
      · simp only [h, if_true] at hq2
        subst hq2; rfl
      · simp only [h, if_false] at hq2
        subst hq2; exact hm q hq
    · rcases List.mem_append.mp hp with h | h
      · exact hm p h
      · simp only [List.mem_singleton] at h
        subst h; rfl

theorem lookupA_dedupFold {α κ : Type} [DecidableEq κ] (key : α → κ) (data : List α)
    (m : List (κ × α)) (k : κ) :
    lookupA (dedupFold key data m) k = (lastWithKey data key k).or (lookupA m k) := by
  induction data generalizing m with
  | nil => simp [dedupFold_nil, lastWithKey, Option.none_or]
  | cons r data ih =>
    rw [dedupFold_cons, ih, lookupA_mapSet]
    by_cases h : key r = k
    · subst h
      simp only [lastWithKey, List.filter_cons, decide_True, if_true, eq_self_iff_true,
        List.getLast?_cons]
      cases hlast : (List.filter (fun x => decide (key x = key r)) data).getLast? with
      | none => simp [hlast, Option.none_or, Option.or, Option.getD]
      | some x => simp [hlast, Option.or, Option.getD]
    · have hk : k ≠ key r := fun hh => h hh.symm
      simp [lastWithKey, List.filter_cons, h, hk]

/-! ### Lemmas about `firstOccKeys` -/

theorem firstOccKeys_nodup {κ : Type} [DecidableEq κ] (l : List κ) :
    (firstOccKeys l).Nodup := by
  induction l with
  | nil => simp [firstOccKeys]
  | cons k ks ih =>
    simp only [firstOccKeys, List.nodup_cons]
    constructor
    · intro h
      exact absurd rfl (of_decide_eq_true (List.mem_filter.mp h).2).elim
    · exact List.Nodup.filter _ ih

theorem mem_firstOccKeys {κ : Type} [DecidableEq κ] (a : κ) (l : List κ) :
    a ∈ firstOccKeys l ↔ a ∈ l := by
  induction l with
  | nil => simp [firstOccKeys]
  | cons k ks ih =>
    simp only [firstOccKeys, List.mem_cons, List.mem_filter, ih]
    by_cases h : a = k <;> simp [h]

theorem firstOccKeys_length {κ : Type} [DecidableEq κ] (l : List κ) :
    (firstOccKeys l).length = l.toFinset.card := by
  have h1 : (firstOccKeys l).toFinset = l.toFinset := by
    ext a
    simp [List.mem_toFinset, mem_firstOccKeys]
  rw [← h1, List.toFinset_card_of_nodup (firstOccKeys_nodup l)]

/-! ### Derived facts about `deduplicateByKey` -/

theorem dedupFold_of_disjoint {α κ : Type} [DecidableEq κ] (key : α → κ) (data : List α)
    (m : List (κ × α)) (hnd : (m.map Prod.fst ++ data.map key).Nodup) :
    dedupFold key data m = m ++ data.map (fun r => (key r, r)) := by
  induction data generalizing m with
  | nil => simp [dedupFold_nil]
  | cons r data ih =>
    have hmem : key r ∉ m.map Prod.fst := by
      rcases List.nodup_append.mp hnd with ⟨_, _, hdisj⟩
      intro hin
      exact hdisj hin (by simp)
    have hset : mapSet m (key r) r = m ++ [(key r, r)] := by
      unfold mapSet; rw [if_neg hmem]
    have h' : ((m ++ [(key r, r)]).map Prod.fst ++ data.map key).Nodup := by
      simpa [List.append_assoc] using hnd
    rw [dedupFold_cons, hset, ih _ h']
    simp

theorem dedup_map_key {α κ : Type} [DecidableEq κ] (data : List α) (key : α → κ) :
    (deduplicateByKey data key).map key = firstOccKeys (data.map key) := by
  unfold deduplicateByKey
  rw [List.map_map]
  have h1 : (dedupFold key data []).map (key ∘ Prod.snd) =
      (dedupFold key data []).map Prod.fst := by
    refine List.map_congr_left ?_
    intro p hp
    exact dedupFold_key_eq key data (by simp) p hp
  rw [h1, dedupFold_map_fst]
  simp

theorem dedup_length_eq {α κ : Type} [DecidableEq κ] (data : List α) (key : α → κ) :
    (deduplicateByKey data key).length = (data.map key).toFinset.card := by
  rw [← List.length_map (deduplicateByKey data key) key, dedup_map_key,
    firstOccKeys_length]

theorem dedup_keys_nodup {α κ : Type} [DecidableEq κ] (data : List α) (key : α → κ) :
    ((deduplicateByKey data key).map key).Nodup := by
  rw [dedup_map_key]; exact firstOccKeys_nodup _

theorem dedup_last_wins {α κ : Type} [DecidableEq κ] (data : List α) (key : α → κ) :
    ∀ r ∈ deduplicateByKey data key, lastWithKey data key (key r) = some r := by
  intro r hr
  obtain ⟨p, hp, hps⟩ := List.mem_map.mp hr
  obtain ⟨k1, v1⟩ := p
  have hkey : key v1 = k1 := dedupFold_key_eq key data (by simp) (k1, v1) hp
  have hnd : ((dedupFold key data []).map Prod.fst).Nodup :=
    dedupFold_nodup_fst key data (by simp)
  have hlook : lookupA (dedupFold key data []) k1 = some v1 :=
    lookupA_of_mem hnd hp
  rw [lookupA_dedupFold] at hlook
  simp only [lookupA, Option.or_none] at hlook
  simp only at hps
  subst hps
  rw [hkey]
  exact hlook

theorem dedup_covers {α κ : Type} [DecidableEq κ] (data : List α) (key : α → κ) :
    ∀ k ∈ data.map key, ∃ r ∈ deduplicateByKey data key, key r = k := by
  intro k hk
  have hmem : k ∈ (deduplicateByKey data key).map key := by
    rw [dedup_map_key, mem_firstOccKeys]; exact hk
  obtain ⟨r, hr, hrk⟩ := List.mem_map.mp hmem
  exact ⟨r, hr, hrk⟩

theorem dedup_of_nodup_keys {α κ : Type} [DecidableEq κ] (data : List α) (key : α → κ)
    (h : (data.map key).Nodup) : deduplicateByKey data key = data := by
  unfold deduplicateByKey
  rw [dedupFold_of_disjoint key data [] (by simpa using h)]
  simp only [List.nil_append, List.map_map]
  have hcomp : (Prod.snd ∘ fun r : α => (key r, r)) = id := rfl
  rw [hcomp, List.map_id]

/-! ### Lemmas about the duplicate detector -/

theorem mem_setAdd {κ : Type} [DecidableEq κ] (s : List κ) (k a : κ) :
    a ∈ setAdd s k ↔ a ∈ s ∨ a = k := by
  by_cases h : k ∈ s
  · simp only [setAdd, if_pos h]
    constructor
    · exact Or.inl
    · rintro (h1 | rfl)
      · exact h1
      · exact h
  · simp [setAdd, h, List.mem_append]

theorem setAdd_nodup {κ : Type} [DecidableEq κ] {s : List κ} (k : κ) (h : s.Nodup) :
    (setAdd s k).Nodup := by
  unfold setAdd
  split
  · exact h
  next hk => simp [List.nodup_append, h, hk]

theorem dupFold_mem {α κ : Type} [DecidableEq κ] (key : α → κ) (data : List α) :
    ∀ (s d : List κ) (k : κ),
      k ∈ (data.foldl (dupStep key) (s, d)).2 ↔
        k ∈ d ∨ (k ∈ s ∧ 1 ≤ (data.map key).count k) ∨ 2 ≤ (data.map key).count k := by
  induction data with
  | nil => intro s d k; simp
  | cons r rest ih =>
    intro s d k
    rw [List.foldl_cons]
    by_cases h : key r ∈ s
    · rw [show dupStep key (s, d) r = (s, setAdd d (key r)) by simp [dupStep, h]]
      rw [ih]
      by_cases hk : k = key r
      · subst hk
        have h1 : key r ∈ setAdd d (key r) := (mem_setAdd d (key r) (key r)).mpr (Or.inr rfl)
        have hcc : List.count (key r) (List.map key (r :: rest))
            = List.count (key r) (List.map key rest) + 1 := by
          rw [List.map_cons, List.count_cons]; simp
        rw [hcc]
        constructor
        · intro _
          exact Or.inr (Or.inl ⟨h, by omega⟩)
        · intro _
          exact Or.inl h1
      · have hk' : ¬key r = k := fun hh => hk hh.symm
        have hcc : List.count k (List.map key (r :: rest))
            = List.count k (List.map key rest) := by
          rw [List.map_cons, List.count_cons]; simp [hk']
        rw [hcc, mem_setAdd]
        simp [hk]
    · rw [show dupStep key (s, d) r = (setAdd s (key r), d) by simp [dupStep, h]]
      rw [ih]
      by_cases hk : k = key r
      · subst hk
        have h1 : key r ∈ setAdd s (key r) := (mem_setAdd s (key r) (key r)).mpr (Or.inr rfl)
        have hcc : List.count (key r) (List.map key (r :: rest))
            = List.count (key r) (List.map key rest) + 1 := by
          rw [List.map_cons, List.count_cons]; simp
        rw [hcc]
        constructor
        · rintro (hd | ⟨_, hc⟩ | hc)
          · exact Or.inl hd
          · exact Or.inr (Or.inr (by omega))
          · exact Or.inr (Or.inr (by omega))
        · rintro (hd | ⟨hs, _⟩ | hc)
          · exact Or.inl hd
          · exact absurd hs h
          · exact Or.inr (Or.inl ⟨h1, by omega⟩)
      · have hk' : ¬key r = k := fun hh => hk hh.symm
        have hcc : List.count k (List.map key (r :: rest))
            = List.count k (List.map key rest) := by
          rw [List.map_cons, List.count_cons]; simp [hk']
        rw [hcc, mem_setAdd]
        simp [hk]

theorem dupFold_nodup {α κ : Type} [DecidableEq κ] (key : α → κ) (data : List α) :
    ∀ (s d : List κ), d.Nodup → ((data.foldl (dupStep key) (s, d)).2).Nodup := by
  induction data with
  | nil => intro s d h; exact h
  | cons r rest ih =>
    intro s d h
    rw [List.foldl_cons]
    by_cases hr : key r ∈ s
    · rw [show dupStep key (s, d) r = (s, setAdd d (key r)) by simp [dupStep, hr]]
      exact ih _ _ (setAdd_nodup _ h)
    · rw [show dupStep key (s, d) r = (setAdd s (key r), d) by simp [dupStep, hr]]
      exact ih _ _ h

theorem mem_findDuplicateIds {α κ : Type} [DecidableEq κ] (data : List α) (key : α → κ)
    (k : κ) :
    k ∈ findDuplicateIds data key ↔ 2 ≤ (data.map key).count k := by
  unfold findDuplicateIds
  rw [dupFold_mem]
  simp

theorem findDuplicateIds_nodup {α κ : Type} [DecidableEq κ] (data : List α)
    (key : α → κ) : (findDuplicateIds data key).Nodup :=
  dupFold_nodup key data [] [] (by simp)

/-! ### Lemmas about the batcher -/

theorem chunkArray_nil {α : Type} (size : Nat) : chunkArray ([] : List α) size = [] := by
  rw [chunkArray]
  simp

theorem chunkArray_cons {α : Type} (l : List α) (size : Nat) (hl : l ≠ [])
    (hs : size ≠ 0) :
    chunkArray l size = l.take size :: chunkArray (l.drop size) size := by
  rw [chunkArray]
  rw [dif_neg (fun hz => hl (List.length_eq_zero.mp hz)), dif_neg hs]

theorem chunkArray_flatten {α : Type} (l : List α) (size : Nat) :
    1 ≤ size → (chunkArray l size).flatten = l := by
  induction l, size using chunkArray.induct with
  | case1 l size h0 =>
    intro _
    rw [List.length_eq_zero.mp h0, chunkArray_nil]
    simp
  | case2 l h0 =>
    intro hs
    omega
  | case3 l size h0 hs ih =>
    intro hs1
    rw [chunkArray_cons l size (fun hz => h0 (by simp [hz])) hs]
    rw [List.flatten_cons, ih hs1, List.take_append_drop]

theorem chunkArray_mem_length {α : Type} (l : List α) (size : Nat) :
    1 ≤ size → ∀ c ∈ chunkArray l size, c ≠ [] ∧ c.length ≤ size := by
  induction l, size using chunkArray.induct with
  | case1 l size h0 =>
    intro _ c hc
    rw [List.length_eq_zero.mp h0, chunkArray_nil] at hc
    simp at hc
  | case2 l h0 =>
    intro hs
    omega
  | case3 l size h0 hs ih =>
    intro hs1 c hc
    rw [chunkArray_cons l size (fun hz => h0 (by simp [hz])) hs] at hc
    rcases List.mem_cons.mp hc with rfl | hc
    · constructor
      · intro hnil
        have := congrArg List.length hnil
        simp only [List.length_take, List.length_nil] at this
        omega
      · simp [List.length_take]
    · exact ih hs1 c hc

theorem chunkArray_dropLast_length {α : Type} (l : List α) (size : Nat) :
    1 ≤ size → ∀ c ∈ (chunkArray l size).dropLast, c.length = size := by
  induction l, size using chunkArray.induct with
  | case1 l size h0 =>
    intro _ c hc
    rw [List.length_eq_zero.mp h0, chunkArray_nil] at hc
    simp at hc
  | case2 l h0 =>
    intro hs
    omega
  | case3 l size h0 hs ih =>
    intro hs1 c hc
    rw [chunkArray_cons l size (fun hz => h0 (by simp [hz])) hs] at hc
    by_cases hrest : chunkArray (l.drop size) size = []
    · rw [hrest] at hc
      simp at hc
    · rw [List.dropLast_cons_of_ne_nil hrest] at hc
      rcases List.mem_cons.mp hc with rfl | hc
      · have hdrop : l.drop size ≠ [] := by
          intro hz
          exact hrest (by rw [hz, chunkArray_nil])
        have hlen : size < l.length := by
          by_contra hge
          exact hdrop (List.drop_eq_nil_of_le (by omega))
        simp only [List.length_take]
        omega
      · exact ih hs1 c hc

/-! ### Lemmas about the fetch-accumulate loop -/

theorem fetchLoop_spec {α ε : Type} (fetch : Nat → Except ε (Option (List α)))
    (target : Nat) (acc : List α) (page : Nat) :
    ∀ res, (fetchLoop fetch target acc page).2 = Except.ok res →
      target ≤ res.length ∨
        ∃ p ∈ (fetchLoop fetch target acc page).1,
          fetch p = Except.ok none ∨ fetch p = Except.ok (some []) := by
  induction acc, page using fetchLoop.induct fetch target with
  | case1 acc page hlt e hf =>
    intro res hres
    rw [fetchLoop, dif_pos hlt, hf] at hres
    simp at hres
  | case2 acc page hlt hf =>
    intro res hres
    rw [fetchLoop, dif_pos hlt, hf]
    exact Or.inr ⟨page, by simp, Or.inl hf⟩
  | case3 acc page hlt hf =>
    intro res hres
    rw [fetchLoop, dif_pos hlt, hf]
    exact Or.inr ⟨page, by simp, Or.inr hf⟩
  | case4 acc page hlt x xs hf ih =>
    intro res hres
    rw [fetchLoop, dif_pos hlt, hf] at hres ⊢
    simp only at hres ⊢
    rcases ih res hres with h | ⟨p, hp, hcase⟩
    · exact Or.inl h
    · exact Or.inr ⟨p, List.mem_cons.mpr (Or.inr hp), hcase⟩
  | case5 acc page hge =>
    intro res hres
    rw [fetchLoop, dif_neg hge] at hres
    obtain rfl : acc = res := by simpa using hres
    exact Or.inl (by omega)

/-! ### Lemmas about the batch-upsert loop -/

theorem runBatches_fail {α ε : Type} (upsert : List α → Except ε Unit) :
    ∀ (chunks : List (List α)) (N : Nat) (bN : List α) (e : ε),
      (∀ b ∈ chunks.take N, upsert b = Except.ok ()) →
      chunks[N]? = some bN →
      upsert bN = Except.error e →
      runBatches upsert chunks = (chunks.take (N + 1), some e) := by
  intro chunks
  induction chunks with
  | nil =>
    intro N bN e _ h2 _
    simp at h2
  | cons c rest ih =>
    intro N bN e h1 h2 h3
    cases N with
    | zero =>
      obtain rfl : c = bN := by simpa using h2
      simp [runBatches, h3]
    | succ M =>
      have hc : upsert c = Except.ok () := h1 c (by simp [List.take_succ_cons])
      have h2' : rest[M]? = some bN := by simpa using h2
      have h1' : ∀ b ∈ rest.take M, upsert b = Except.ok () := by
        intro b hb
        exact h1 b (by simp [List.take_succ_cons, hb])
      simp [runBatches, hc, ih M bN e h1' h2' h3, List.take_succ_cons]

theorem runBatches_nil {α ε : Type} (upsert : List α → Except ε Unit) :
    runBatches upsert ([] : List (List α)) = ([], none) := rfl

/-! ### Claim theorems -/

/-- Claim C1, counterexample: on the scenario input
`[{id:1,v:'a'},{id:2,v:'b'},{id:1,v:'c'}]` with key `id`,
`deduplicateByKey` returns `[{id:1,v:'c'},{id:2,v:'b'}]` — id 1
first, not id 2 first as the claim states: a JS `Map.set` on an
existing key keeps the key's original insertion position. -/
theorem c1_counterexample :
    deduplicateByKey scenarioData (fun r => r.id) = [⟨1, "c"⟩, ⟨2, "b"⟩] ∧
    deduplicateByKey scenarioData (fun r => r.id) ≠ [⟨2, "b"⟩, ⟨1, "c"⟩] := by
  decide

/-- Claim C1 (amended): for the scenario input the deduplicator returns
`[{id:1,v:'c'},{id:2,v:'b'}]` (id 1 before id 2); in general the
relative order of the output follows the position of each key's FIRST
occurrence in the input, while the surviving record for a key is still
its last occurrence. -/
theorem c1_dedup_order_first_occurrence :
    deduplicateByKey scenarioData (fun r => r.id) = [⟨1, "c"⟩, ⟨2, "b"⟩] ∧
    ∀ {α κ : Type} [DecidableEq κ] (data : List α) (key : α → κ),
      (deduplicateByKey data key).map key = firstOccKeys (data.map key) := by
  refine ⟨by decide, ?_⟩
  intro α κ inst data key
  exact dedup_map_key data key

/-- Claim C2: for every input and key, the deduplicator's output has
exactly one record per distinct key occurring in the input (its length
is the number of distinct keys, its keys are duplicate-free, and every
input key is represented), and each surviving record is the last
record in input order bearing its key. -/
theorem c2_dedup_last_write_wins {α κ : Type} [DecidableEq κ] (data : List α)
    (key : α → κ) :
    (deduplicateByKey data key).length = (data.map key).toFinset.card ∧
    ((deduplicateByKey data key).map key).Nodup ∧
    (∀ r ∈ deduplicateByKey data key, lastWithKey data key (key r) = some r) ∧
    (∀ k ∈ data.map key, ∃ r ∈ deduplicateByKey data key, key r = k) :=
  ⟨dedup_length_eq data key, dedup_keys_nodup data key, dedup_last_wins data key,
    dedup_covers data key⟩

theorem c2_witness :
    lastWithKey scenarioData (fun r => r.id) 1 = some ⟨1, "c"⟩ ∧
    (deduplicateByKey scenarioData (fun r => r.id)).length =
      (scenarioData.map (fun r => r.id)).toFinset.card :=
  ⟨(c2_dedup_last_write_wins scenarioData (fun r => r.id)).2.2.1 ⟨1, "c"⟩ (by decide),
    (c2_dedup_last_write_wins scenarioData (fun r => r.id)).1⟩

set_option maxRecDepth 4000 in
/-- Claim C3: the accumulate-and-trim step returns at most `target`
records; it returns fewer than `target` only if one of the fetched
pages was empty or not an array; and on the 250/250/0 scenario with
target 1250 it returns exactly 500 records. -/
theorem c3_trim_bound {α ε : Type} (fetch : Nat → Except ε (Option (List α)))
    (target : Nat) (allData : List α)
    (hok : (fetchLoop fetch target [] 1).2 = Except.ok allData) :
    (allData.take target).length ≤ target ∧
    ((allData.take target).length < target →
      ∃ p ∈ (fetchLoop fetch target [] 1).1,
        fetch p = Except.ok none ∨ fetch p = Except.ok (some [])) ∧
    (fetchLoop scenarioPages 1250 [] 1).2 = Except.ok (List.replicate 500 0) := by
  refine ⟨by simp [List.length_take], ?_, ?_⟩
  · intro hlt
    rcases fetchLoop_spec fetch target [] 1 allData hok with h | h
    · rw [List.length_take] at hlt
      exfalso
      omega
    · exact h
  · simp [fetchLoop, scenarioPages, List.replicate]

set_option maxRecDepth 4000 in
theorem c3_witness :
    ((List.replicate 500 (0 : Nat)).take 1250).length ≤ 1250 ∧
    ∃ p ∈ (fetchLoop scenarioPages 1250 [] 1).1,
      scenarioPages p = Except.ok none ∨ scenarioPages p = Except.ok (some []) := by
  have hok : (fetchLoop scenarioPages 1250 [] 1).2 =
      Except.ok (List.replicate 500 (0 : Nat)) := by
    simp [fetchLoop, scenarioPages, List.replicate]
  have h := c3_trim_bound scenarioPages 1250 (List.replicate 500 0) hok
  exact ⟨h.1, h.2.1 (by simp)⟩

/-- Claim C4: batches are upserted strictly one at a time in order; if
the upsert of the batch at index `N` fails with `e` while all earlier
batches succeeded, then exactly the batches up to and including `N`
were submitted in order, no later batch is attempted, and the
invocation reports failure with `e`. -/
theorem c4_batch_failure_aborts {α κ ε : Type} [DecidableEq κ]
    (fetch : Nat → Except ε (Option (List α))) (upsert : List α → Except ε Unit)
    (key : α → κ) (target batchSize : Nat) (allData : List α)
    (chunks : List (List α)) (N : Nat) (bN : List α) (e : ε)
    (hok : (fetchLoop fetch target [] 1).2 = Except.ok allData)
    (hchunks : chunks = chunkArray (deduplicateByKey (allData.take target) key) batchSize)
    (hprev : ∀ b ∈ chunks.take N, upsert b = Except.ok ())
    (hN : chunks[N]? = some bN)
    (hfail : upsert bN = Except.error e) :
    handlerRun fetch upsert key target batchSize =
      ⟨Outcome.failure e, (fetchLoop fetch target [] 1).1, chunks.take (N + 1)⟩ := by
  have hrb : runBatches upsert chunks = (chunks.take (N + 1), some e) :=
    runBatches_fail upsert chunks N bN e hprev hN hfail
  unfold handlerRun
  simp only [hok, ← hchunks, hrb]

theorem c4_witness :
    handlerRun wfetch wupsert (fun r => r) 10 2 =
      ⟨Outcome.failure "store error", [1, 2], [[1, 2], [3, 4]]⟩ := by
  have hok : (fetchLoop wfetch 10 [] 1).2 = Except.ok [1, 2, 3, 4, 5] := by
    simp [fetchLoop, wfetch]
  have hfl : (fetchLoop wfetch 10 [] 1).1 = [1, 2] := by
    simp [fetchLoop, wfetch]
  have hchunks : ([[1, 2], [3, 4], [5]] : List (List Nat)) =
      chunkArray (deduplicateByKey (([1, 2, 3, 4, 5] : List Nat).take 10) (fun r => r)) 2 := by
    rw [show (([1, 2, 3, 4, 5] : List Nat).take 10) = [1, 2, 3, 4, 5] from rfl,
      show deduplicateByKey ([1, 2, 3, 4, 5] : List Nat) (fun r => r) = [1, 2, 3, 4, 5]
        from rfl]
    simp [chunkArray]
  have h := c4_batch_failure_aborts wfetch wupsert (fun r => r) 10 2 [1, 2, 3, 4, 5]
    [[1, 2], [3, 4], [5]] 1 [3, 4] "store error" hok hchunks
    (by
      intro b hb
      have hb2 : b = [1, 2] := by simpa using hb
      subst hb2
      rfl)
    rfl rfl
  rw [h, hfl]
  rfl

/-- Claim C5: for every input and batch size `B ≥ 1`, concatenating
the batcher's chunks reproduces the input exactly; every chunk has
between 1 and `B` elements; and every chunk except possibly the last
has exactly `B` elements. -/
theorem c5_chunk_concat {α : Type} (l : List α) (B : Nat) (hB : 1 ≤ B) :
    (chunkArray l B).flatten = l ∧
    (∀ c ∈ chunkArray l B, 1 ≤ c.length ∧ c.length ≤ B) ∧
    (∀ c ∈ (chunkArray l B).dropLast, c.length = B) := by
  refine ⟨chunkArray_flatten l B hB, ?_, chunkArray_dropLast_length l B hB⟩
  intro c hc
  obtain ⟨h1, h2⟩ := chunkArray_mem_length l B hB c hc
  exact ⟨List.length_pos.mpr h1, h2⟩

theorem c5_witness :
    (chunkArray ([1, 2, 3, 4, 5] : List Nat) 2).flatten = [1, 2, 3, 4, 5] ∧
    ∀ c ∈ (chunkArray ([1, 2, 3, 4, 5] : List Nat) 2).dropLast, c.length = 2 :=
  ⟨(c5_chunk_concat [1, 2, 3, 4, 5] 2 (by decide)).1,
    (c5_chunk_concat [1, 2, 3, 4, 5] 2 (by decide)).2.2⟩

/-- Claim C6: the page fetch fails exactly when the response status is
not 2xx; on failure the error message contains the status code and the
status text; on a success status it returns the decoded JSON body. -/
theorem c6_fetchPage_status {α : Type} (transport : Nat → HttpResponse α) (page : Nat) :
    ((∃ msg, fetchPage transport page = Except.error msg) ↔
      ¬(200 ≤ (transport page).status ∧ (transport page).status < 300)) ∧
    ((200 ≤ (transport page).status ∧ (transport page).status < 300) →
      fetchPage transport page = Except.ok (transport page).body) ∧
    (∀ msg, fetchPage transport page = Except.error msg →
      (∃ a b, msg = a ++ toString (transport page).status ++ b) ∧
      (∃ a b, msg = a ++ (transport page).statusText ++ b)) := by
  have hok : respOk (transport page) = true ↔
      (200 ≤ (transport page).status ∧ (transport page).status < 300) := by
    simp [respOk]
  by_cases h : 200 ≤ (transport page).status ∧ (transport page).status < 300
  · have hr : respOk (transport page) = true := hok.mpr h
    refine ⟨?_, fun _ => ?_, fun msg hmsg => ?_⟩
    · constructor
      · rintro ⟨msg, hmsg⟩
        rw [show fetchPage transport page = Except.ok (transport page).body by
          simp [fetchPage, hr]] at hmsg
        exact absurd hmsg (by simp)
      · intro hc
        exact absurd h hc
    · simp [fetchPage, hr]
    · rw [show fetchPage transport page = Except.ok (transport page).body by
        simp [fetchPage, hr]] at hmsg
      exact absurd hmsg (by simp)
  · have hr : respOk (transport page) = false := by
      rcases hb : respOk (transport page) with _ | _
      · rfl
      · exact absurd (hok.mp hb) h
    have hmsgeq : fetchPage transport page =
        Except.error ("CoinGecko API error: " ++ toString (transport page).status ++ " "
          ++ (transport page).statusText) := by
      simp [fetchPage, hr]
    refine ⟨?_, fun hc => absurd hc h, fun msg hmsg => ?_⟩
    · exact ⟨fun _ => h, fun _ => ⟨_, hmsgeq⟩⟩
    · rw [hmsgeq] at hmsg
      obtain rfl : ("CoinGecko API error: " ++ toString (transport page).status ++ " "
          ++ (transport page).statusText) = msg := by
        simpa using hmsg
      constructor
      · exact ⟨"CoinGecko API error: ", " " ++ (transport page).statusText,
          (String.append_assoc _ _ _)⟩
      · exact ⟨"CoinGecko API error: " ++ toString (transport page).status ++ " ", "",
          (String.append_empty _).symm⟩

theorem c6_witness :
    (∃ msg, fetchPage wtransport 1 = Except.error msg) ∧
    fetchPage wtransportOk 1 = Except.ok (some [7]) :=
  ⟨(c6_fetchPage_status wtransport 1).1.mpr (by decide),
    (c6_fetchPage_status wtransportOk 1).2.1 (by decide)⟩

/-- Claim C7: when the store endpoint URL or the service key is absent
from the environment, the process exits fatally (code 1) at startup:
no page is fetched and no batch is submitted. -/
theorem c7_missing_credentials_fatal {α κ ε : Type} [DecidableEq κ]
    (supabaseUrl supabaseServiceKey : Option String)
    (fetch : Nat → Except ε (Option (List α))) (upsert : List α → Except ε Unit)
    (key : α → κ) (target batchSize : Nat)
    (h : supabaseUrl = none ∨ supabaseServiceKey = none) :
    processRun supabaseUrl supabaseServiceKey fetch upsert key target batchSize =
      (ProcessResult.fatalExit 1, [], []) := by
  unfold processRun
  rcases h with rfl | rfl
  · simp [envTruthy]
  · simp [envTruthy]

theorem c7_witness :
    processRun none (some "service-key") wfetch wupsert (fun r : Nat => r) 10 2 =
      (ProcessResult.fatalExit 1, [], []) :=
  c7_missing_credentials_fatal none (some "service-key") wfetch wupsert
    (fun r : Nat => r) 10 2 (Or.inl rfl)

/-- Claim C8: deduplication is idempotent: deduplicating an
already-deduplicated sequence yields the same sequence. -/
theorem c8_dedup_idempotent {α κ : Type} [DecidableEq κ] (data : List α) (key : α → κ) :
    deduplicateByKey (deduplicateByKey data key) key = deduplicateByKey data key :=
  dedup_of_nodup_keys _ key (dedup_keys_nodup data key)

/-- Claim C9: the duplicate detector returns exactly the keys that
occur at least twice in the input (each reported once, duplicate-free);
it is a pure function of its input (the embedding is purely
functional, so the input sequence is unchanged by construction); on
the scenario input with key `id` it returns `[1]`. -/
theorem c9_duplicate_detector {α κ : Type} [DecidableEq κ] (data : List α)
    (key : α → κ) :
    (∀ k, k ∈ findDuplicateIds data key ↔ 2 ≤ (data.map key).count k) ∧
    (findDuplicateIds data key).Nodup ∧
    findDuplicateIds scenarioData (fun r => r.id) = [1] :=
  ⟨fun k => mem_findDuplicateIds data key k, findDuplicateIds_nodup data key, by decide⟩

/-- Claim C10: if the very first fetched page is empty or not an
array, the deduplicated snapshot is empty, the batcher produces zero
chunks, no upsert is ever issued, and the handler reports success with
a total of 0. -/
theorem c10_exhausted_source_success {α κ ε : Type} [DecidableEq κ]
    (fetch : Nat → Except ε (Option (List α))) (upsert : List α → Except ε Unit)
    (key : α → κ) (target batchSize : Nat)
    (htarget : 0 < target)
    (hfirst : fetch 1 = Except.ok none ∨ fetch 1 = Except.ok (some [])) :
    deduplicateByKey ([] : List α) key = [] ∧
    chunkArray ([] : List α) batchSize = [] ∧
    handlerRun fetch upsert key target batchSize = ⟨Outcome.success 0, [1], []⟩ := by
  refine ⟨rfl, chunkArray_nil batchSize, ?_⟩
  have hloop : fetchLoop fetch target [] 1 = ([1], Except.ok []) := by
    rcases hfirst with h | h
    · rw [fetchLoop, dif_pos (by simpa using htarget), h]
    · rw [fetchLoop, dif_pos (by simpa using htarget), h]
  unfold handlerRun
  rw [hloop]
  simp [deduplicateByKey, dedupFold_nil, chunkArray_nil, runBatches_nil]

theorem c10_witness :
    handlerRun emptyFetch wupsert (fun r : Nat => r) 10 2 =
      ⟨Outcome.success 0, [1], []⟩ :=
  (c10_exhausted_source_success emptyFetch wupsert (fun r : Nat => r) 10 2
    (by decide) (Or.inr rfl)).2.2

end CoinSnapshot
